import Mathlib

/-!
Verification of the iptables rule-rendering and chain-fingerprinting core
(`go/felix/iptables/rules.go`).

The Go source is shallowly embedded below: each Go function becomes a pure,
executable Lean definition.  Byte strings are `List Nat` (each element a byte
value), machine words are `Nat` taken modulo `2^32` where the Go code relies
on 32-bit wraparound (inside SHA-224), and the `crypto/sha256` /
`encoding/base64` library routines used by `RuleHashes` are modelled by
executable reimplementations of SHA-224 and of the raw (padding-free)
URL-safe base-64 encoding, validated against the published test vectors.
-/

namespace Iptables

/-! ## Byte-level helpers: UTF-8 encoding of strings

Models the Go conversion `[]byte(s)` of a (UTF-8) string to its bytes. -/

/-- UTF-8 encoding of a single code point, as byte values. -/
def utf8Char (c : Char) : List Nat :=
  let n := c.toNat
  if n < 128 then [n]
  else if n < 2048 then [192 ||| (n >>> 6), 128 ||| (n &&& 63)]
  else if n < 65536 then
    [224 ||| (n >>> 12), 128 ||| ((n >>> 6) &&& 63), 128 ||| (n &&& 63)]
  else
    [240 ||| (n >>> 18), 128 ||| ((n >>> 12) &&& 63), 128 ||| ((n >>> 6) &&& 63),
     128 ||| (n &&& 63)]

/-- Bytes of a string, as in the Go expression `[]byte(s)`. -/
def utf8 (s : String) : List Nat := s.data.flatMap utf8Char

/-! ## Rendering of numbers

Models the `fmt` verbs used by the source: `%x` (lower-case hexadecimal,
no `0x`, no padding) and `%d` (decimal).  Both are instances of a general
minimal base-`b` rendering; the recursion uses explicit fuel so that every
definition reduces inside the kernel. -/

/-- Digit character for a value below 16: `0`-`9` then `a`-`f`. -/
def digitCh (d : Nat) : Char := if d < 10 then Char.ofNat (48 + d) else Char.ofNat (87 + d)

/-- Numeric value of a digit character produced by `digitCh`. -/
def digVal (c : Char) : Nat := if c.toNat ≤ 57 then c.toNat - 48 else c.toNat - 87

/-- Little-endian digit list of `n` in base `b` (empty for `n = 0`); `fuel`
bounds the recursion depth and any `fuel ≥ n` is sufficient. -/
def toBaseCore (b : Nat) : Nat → Nat → List Char
  | _, 0 => []
  | 0, _+1 => []
  | fuel+1, n+1 => digitCh ((n+1) % b) :: toBaseCore b fuel ((n+1) / b)

/-- Minimal base-`b` rendering of a natural number, most significant digit
first; renders `0` as `"0"`. -/
def baseRender (b n : Nat) : String :=
  match n with
  | 0 => "0"
  | _ => String.mk (toBaseCore b n n).reverse

/-- Go `fmt` verb `%x` on a non-negative integer. -/
def lowerHex (n : Nat) : String := baseRender 16 n

/-- Go `fmt` verb `%d` on a non-negative integer. -/
def decString (n : Nat) : String := baseRender 10 n

/-- Go `fmt` verb `%d` on a signed integer. -/
def intDec (n : Int) : String :=
  if n < 0 then "-" ++ decString n.natAbs else decString n.natAbs

/-! ## SHA-224 (FIPS 180-4), as used via Go `crypto/sha256.New224`

Messages and digests are byte lists; all word arithmetic is `Nat` reduced
modulo `2^32`. -/

/-- The 32-bit modulus. -/
def M32 : Nat := 4294967296

/-- Right rotation of a 32-bit word by `n` bits. -/
def rotr (n x : Nat) : Nat := ((x >>> n) ||| (x <<< (32 - n))) % M32

/-- SHA-256 compression function `Σ₀`. -/
def bigSigma0 (x : Nat) : Nat := (rotr 2 x) ^^^ (rotr 13 x) ^^^ (rotr 22 x)

/-- SHA-256 compression function `Σ₁`. -/
def bigSigma1 (x : Nat) : Nat := (rotr 6 x) ^^^ (rotr 11 x) ^^^ (rotr 25 x)

/-- SHA-256 message-schedule function `σ₀`. -/
def smallSigma0 (x : Nat) : Nat := (rotr 7 x) ^^^ (rotr 18 x) ^^^ (x >>> 3)

/-- SHA-256 message-schedule function `σ₁`. -/
def smallSigma1 (x : Nat) : Nat := (rotr 17 x) ^^^ (rotr 19 x) ^^^ (x >>> 10)

/-- SHA-256 choice function `Ch` (the complement is taken in 32 bits). -/
def chQ (x y z : Nat) : Nat := (x &&& y) ^^^ ((x ^^^ 4294967295) &&& z)

/-- SHA-256 majority function `Maj`. -/
def majQ (x y z : Nat) : Nat := (x &&& y) ^^^ (x &&& z) ^^^ (y &&& z)

/-- The 64 SHA-256 round constants. -/
def shaK : List Nat :=
  [1116352408, 1899447441, 3049323471, 3921009573, 961987163,
   1508970993, 2453635748, 2870763221, 3624381080, 310598401,
   607225278, 1426881987, 1925078388, 2162078206, 2614888103,
   3248222580, 3835390401, 4022224774, 264347078, 604807628,
   770255983, 1249150122, 1555081692, 1996064986, 2554220882,
   2821834349, 2952996808, 3210313671, 3336571891, 3584528711,
   113926993, 338241895, 666307205, 773529912, 1294757372,
   1396182291, 1695183700, 1986661051, 2177026350, 2456956037,
   2730485921, 2820302411, 3259730800, 3345764771, 3516065817,
   3600352804, 4094571909, 275423344, 430227734, 506948616,
   659060556, 883997877, 958139571, 1322822218, 1537002063,
   1747873779, 1955562222, 2024104815, 2227730452, 2361852424,
   2428436474, 2756734187, 3204031479, 3329325298]

/-- Eight-word SHA-256 state. -/
structure H8 where
  a : Nat
  b : Nat
  c : Nat
  d : Nat
  e : Nat
  f : Nat
  g : Nat
  h : Nat

/-- Initial state of SHA-224. -/
def h224 : H8 :=
  ⟨3238371032, 914150663, 812702999, 4144912697, 4290775857, 1750603025, 1694076839, 3204075428⟩

/-- One SHA-256 round, consuming one (round constant, schedule word) pair. -/
def compressStep (s : H8) (kw : Nat × Nat) : H8 :=
  let t1 := (s.h + bigSigma1 s.e + chQ s.e s.f s.g + kw.1 + kw.2) % M32
  let t2 := (bigSigma0 s.a + majQ s.a s.b s.c) % M32
  ⟨(t1 + t2) % M32, s.a, s.b, s.c, (s.d + t1) % M32, s.e, s.f, s.g⟩

/-- Message-schedule extension: `acc` holds the schedule so far in reverse;
`t` more words are produced, then the whole schedule is returned in order. -/
def schedExt : List Nat → Nat → List Nat
  | acc, 0 => acc.reverse
  | acc, t+1 =>
    let w := (smallSigma1 (acc.getD 1 0) + acc.getD 6 0 + smallSigma0 (acc.getD 14 0)
              + acc.getD 15 0) % M32
    schedExt (w :: acc) t

/-- Big-endian packing of bytes into 32-bit words, four bytes per word. -/
def toWords : List Nat → List Nat
  | b0 :: b1 :: b2 :: b3 :: rest =>
    ((b0 <<< 24) ||| (b1 <<< 16) ||| (b2 <<< 8) ||| b3) :: toWords rest
  | _ => []

/-- Process one 64-byte block: expand the schedule, run the 64 rounds, and
add the result into the incoming state. -/
def compressBlock (s : H8) (block : List Nat) : H8 :=
  let ws := schedExt (toWords block).reverse 48
  let t := (shaK.zip ws).foldl compressStep s
  ⟨(s.a + t.a) % M32, (s.b + t.b) % M32, (s.c + t.c) % M32, (s.d + t.d) % M32,
   (s.e + t.e) % M32, (s.f + t.f) % M32, (s.g + t.g) % M32, (s.h + t.h) % M32⟩

/-- Big-endian byte rendering of `v` in exactly `n` bytes. -/
def beBytes : Nat → Nat → List Nat
  | 0, _ => []
  | n+1, v => beBytes n (v >>> 8) ++ [v &&& 255]

/-- SHA padding: append `0x80`, zeros to 56 mod 64, and the 64-bit bit length. -/
def shaPad (msg : List Nat) : List Nat :=
  let len := msg.length
  let k := (119 - len % 64) % 64
  msg ++ 128 :: (List.replicate k 0 ++ beBytes 8 (len * 8))

/-- Split a byte list into consecutive 64-byte blocks; `fuel` bounds the
recursion and any `fuel ≥ ` the block count is sufficient. -/
def chunksF : Nat → List Nat → List (List Nat)
  | 0, _ => []
  | _, [] => []
  | fuel+1, l => l.take 64 :: chunksF fuel (l.drop 64)

/-- SHA-224 digest of a byte list: the first seven words of the final state,
big-endian — 28 bytes.  Models `sha256.New224` / `Write` / `Sum` in Go. -/
def sha224 (msg : List Nat) : List Nat :=
  let padded := shaPad msg
  let s := (chunksF padded.length padded).foldl compressBlock h224
  beBytes 4 s.a ++ beBytes 4 s.b ++ beBytes 4 s.c ++ beBytes 4 s.d ++ beBytes 4 s.e ++
    beBytes 4 s.f ++ beBytes 4 s.g

/-! ## Raw URL-safe base-64 (Go `base64.RawURLEncoding`) -/

/-- Alphabet of the URL-safe base-64 encoding. -/
def b64Table : List Char :=
  "ABCDEFGHIJKLMNOPQRSTUVWXYZabcdefghijklmnopqrstuvwxyz0123456789-_".data

/-- Character of the URL-safe base-64 alphabet at index `i`. -/
def tbl (i : Nat) : Char := b64Table.getD i 'A'

/-- Padding-free URL-safe base-64 encoding of a byte list. -/
def b64enc : List Nat → List Char
  | [] => []
  | [b0] => [tbl ((b0 >>> 2) &&& 63), tbl ((b0 <<< 4) &&& 63)]
  | [b0, b1] => [tbl ((b0 >>> 2) &&& 63), tbl (((b0 <<< 4) ||| (b1 >>> 4)) &&& 63),
                 tbl ((b1 <<< 2) &&& 63)]
  | b0 :: b1 :: b2 :: rest =>
    tbl ((b0 >>> 2) &&& 63) :: tbl (((b0 <<< 4) ||| (b1 >>> 4)) &&& 63) ::
    tbl (((b1 <<< 2) ||| (b2 >>> 6)) &&& 63) :: tbl (b2 &&& 63) :: b64enc rest

/-! ## The data model of `rules.go` -/

/-- Modelled from the spec: the match-criteria collaborator is an opaque
value whose only observable behaviour is its pure `Render() -> string`
method (its Go definition lives outside the verified file), so a value is
represented by the string its renderer returns. -/
structure MatchCriteria where
  Render : String
deriving DecidableEq

/-- The closed set of action variants of `rules.go` (`GotoAction`,
`JumpAction`, `ReturnAction`, `DropAction`, `AcceptAction`, `DNATAction`,
`MasqAction`, `ClearMarkAction`, `SetMarkAction`), as a sum type.  The Go
`uint32` mark and `uint16` port fields are carried as `Nat`; the code never
computes on them, it only renders them. -/
inductive Action where
  | GotoAction (Target : String)
  | JumpAction (Target : String)
  | ReturnAction
  | DropAction
  | AcceptAction
  | DNATAction (DestAddr : String) (DestPort : Nat)
  | MasqAction
  | ClearMarkAction (Mark : Nat)
  | SetMarkAction (Mark : Nat)
deriving DecidableEq

/-- The `ToFragment` methods of the nine action variants. -/
def Action.ToFragment : Action → String
  | .GotoAction t => "--goto " ++ t
  | .JumpAction t => "--jump " ++ t
  | .ReturnAction => "--jump RETURN"
  | .DropAction => "--jump DROP"
  | .AcceptAction => "--jump ACCEPT"
  | .DNATAction addr port => "--jump DNAT --to-destination " ++ addr ++ ":" ++ decString port
  | .MasqAction => "--jump MASQUERADE"
  | .ClearMarkAction m => "--jump MARK --set-mark 0/" ++ lowerHex m
  | .SetMarkAction m => "--jump MARK --set-mark " ++ lowerHex m ++ "/" ++ lowerHex m

/-- The `Rule` struct of `rules.go`. -/
structure Rule where
  Match : MatchCriteria
  Action : Action
  Comment : String
deriving DecidableEq

/-- Go `strings.Join(fragments, " ")`. -/
def joinSp : List String → String
  | [] => ""
  | [x] => x
  | x :: y :: rest => x ++ " " ++ joinSp (y :: rest)

/-- The `renderInner` method: append the optional prefix, comment, match and
action fragments to the verb fragments and join with single spaces. -/
def Rule.renderInner (r : Rule) (fragments : List String) (pfx : String) : String :=
  let fragments := if pfx ≠ "" then fragments ++ [pfx] else fragments
  let fragments :=
    if r.Comment ≠ "" then
      fragments ++ ["-m comment --comment \"" ++ r.Comment ++ "\""]
    else fragments
  let matchFragment := r.Match.Render
  let fragments := if matchFragment ≠ "" then fragments ++ [matchFragment] else fragments
  let actionFragment := r.Action.ToFragment
  let fragments := if actionFragment ≠ "" then fragments ++ [actionFragment] else fragments
  joinSp fragments

/-- The `RenderAppend` method. -/
def Rule.RenderAppend (r : Rule) (chainName pfx : String) : String :=
  r.renderInner ["-A", chainName] pfx

/-- The `RenderInsert` method. -/
def Rule.RenderInsert (r : Rule) (chainName pfx : String) : String :=
  r.renderInner ["-I", chainName] pfx

/-- The `RenderReplace` method; the rule number is rendered with `%d`. -/
def Rule.RenderReplace (r : Rule) (chainName : String) (ruleNum : Int) (pfx : String) : String :=
  r.renderInner ["-R", chainName, intDec ruleNum] pfx

/-- The `HashLength` constant of `rules.go`. -/
def HashLength : Nat := 16

/-- The `Chain` struct of `rules.go`. -/
structure Chain where
  Name : String
  Rules : List Rule
deriving DecidableEq

/-- The loop body of `Chain.RuleHashes`: starting from running digest `h`,
hash each rule in order.  Each step digests the previous running digest
followed by the rule rendered via `RenderAppend` with prefix `"HASH"`, and
emits the first `HashLength` characters of the raw URL-safe base-64
encoding of the new running digest.  The debug logging of the Go loop has
no effect on the computed values and is not modelled. -/
def hashChainFrom (name : String) (h : List Nat) : List Rule → List String
  | [] => []
  | r :: rest =>
    let h2 := sha224 (h ++ utf8 (r.RenderAppend name "HASH"))
    String.mk ((b64enc h2).take HashLength) :: hashChainFrom name h2 rest

/-- The `Chain.RuleHashes` method: seed the running digest with the digest
of the chain name alone, then hash the rules in order. -/
def Chain.RuleHashes (c : Chain) : List String :=
  hashChainFrom c.Name (sha224 (utf8 c.Name)) c.Rules

end Iptables

namespace Iptables

/-! ## Specification-side characterization of rendering -/

/-- Optional fragment contribution to a joined command line: nothing when
the fragment is empty, otherwise one separating space and the fragment. -/
def optFrag (s : String) : String := if s = "" then "" else " " ++ s

/-- Comment-match contribution: nothing when the comment is empty,
otherwise one space and `-m comment --comment "<comment>"`. -/
def commentFrag (comment : String) : String :=
  if comment = "" then "" else " -m comment --comment \"" ++ comment ++ "\""

/-- Join a fragment list with one leading space per fragment. -/
def preSp : List String → String
  | [] => ""
  | x :: xs => " " ++ x ++ preSp xs

/-- The optional fragments appended by `renderInner`, in order. -/
def optsOf (r : Rule) (pfx : String) : List String :=
  (if pfx ≠ "" then [pfx] else []) ++
  (if r.Comment ≠ "" then ["-m comment --comment \"" ++ r.Comment ++ "\""] else []) ++
  (if r.Match.Render ≠ "" then [r.Match.Render] else []) ++
  (if r.Action.ToFragment ≠ "" then [r.Action.ToFragment] else [])

/-! ## Specification-side predicates on rendered numbers and strings -/

/-- The lower-case hexadecimal digit characters. -/
def hexDigits : List Char := "0123456789abcdef".data

/-- The decimal digit characters. -/
def decDigits : List Char := "0123456789".data

/-- Value of a most-significant-digit-first digit string in base `b`. -/
def baseVal (b : Nat) (l : List Char) : Nat :=
  l.foldl (fun acc c => b * acc + digVal c) 0

/-- Value of a least-significant-digit-first digit string in base `b`. -/
def baseValLE (b : Nat) : List Char → Nat
  | [] => 0
  | c :: rest => digVal c + b * baseValLE b rest

/-- Characterization of the minimal base-`b` rendering of `n` over the
digit alphabet `digits`: non-empty, made only of those digits, without a
leading zero except for the value zero itself, and evaluating back to `n`. -/
def IsMinimalBase (b : Nat) (digits : List Char) (s : String) (n : Nat) : Prop :=
  s.data ≠ [] ∧ (∀ c ∈ s.data, c ∈ digits) ∧ (s.data.head? = some '0' → n = 0) ∧
    baseVal b s.data = n

/-- Absence of two consecutive spaces anywhere in a string. -/
def noDoubleSpace (s : String) : Prop :=
  List.Chain' (fun a b => ¬(a = ' ' ∧ b = ' ')) s.data

/-- Executable mirror of `noDoubleSpace` on character lists. -/
def noDSb : List Char → Bool
  | [] => true
  | [_] => true
  | a :: b :: rest => !(a == ' ' && b == ' ') && noDSb (b :: rest)

/-- Exchange the elements at positions `i` and `j` of a list (identity when
either position is out of range). -/
def swapAt (l : List α) (i j : Nat) : List α :=
  match l.get? i, l.get? j with
  | some a, some b => (l.set i b).set j a
  | _, _ => l

/-- Transcription of the chained-digest algorithm of spec section 4.3,
parameterized by the cryptographic digest and the sentinel token: seed the
running digest with the digest of the chain name alone; for each rule in
order, digest the previous running digest followed by the UTF-8 bytes of
the rule rendered via `RenderAppend` with the sentinel as prefix fragment,
and emit the first 16 characters of the padding-free URL-safe base-64
encoding of the new running digest. -/
def specChainedFingerprints (digest : List Nat → List Nat) (sentinel : String)
    (name : String) (rules : List Rule) : List String :=
  (rules.foldl
    (fun acc r =>
      let running := digest (acc.1 ++ utf8 (r.RenderAppend name sentinel))
      (running, acc.2 ++ [String.mk ((b64enc running).take 16)]))
    (digest (utf8 name), ([] : List String))).2

/-! ## Concrete values used by witnesses and counterexamples -/

/-- A rule with empty match output, empty comment, and the Accept action;
it renders as in the end-to-end example of spec section 8. -/
def exAccept : Rule := ⟨⟨""⟩, Action.AcceptAction, ""⟩

/-- A rule with empty match output, empty comment, and the Drop action. -/
def exDrop : Rule := ⟨⟨""⟩, Action.DropAction, ""⟩

/-- A rule with empty match output, empty comment, and the Return action. -/
def exReturn : Rule := ⟨⟨""⟩, Action.ReturnAction, ""⟩

theorem joinSp_cons (x : String) (xs : List String) : joinSp (x :: xs) = x ++ preSp xs := by
  induction xs generalizing x with
  | nil => simp [joinSp, preSp, String.append_empty]
  | cons y ys ih => simp [joinSp, preSp, ih y, String.append_assoc]

theorem preSp_append (xs ys : List String) : preSp (xs ++ ys) = preSp xs ++ preSp ys := by
  induction xs with
  | nil => simp [preSp, String.empty_append]
  | cons x xs ih => simp [preSp, ih, String.append_assoc]

theorem renderInner_eq (r : Rule) (fs : List String) (pfx : String) :
    r.renderInner fs pfx = joinSp (fs ++ optsOf r pfx) := by
  by_cases h1 : pfx = "" <;> by_cases h2 : r.Comment = "" <;>
    by_cases h3 : r.Match.Render = "" <;> by_cases h4 : r.Action.ToFragment = "" <;>
    simp [Rule.renderInner, optsOf, h1, h2, h3, h4, List.append_assoc]

theorem preSp_optsOf (r : Rule) (pfx : String) :
    preSp (optsOf r pfx) =
      optFrag pfx ++ commentFrag r.Comment ++ optFrag r.Match.Render ++
        optFrag r.Action.ToFragment := by
  by_cases h1 : pfx = "" <;> by_cases h2 : r.Comment = "" <;>
    by_cases h3 : r.Match.Render = "" <;> by_cases h4 : r.Action.ToFragment = "" <;>
    simp [optsOf, optFrag, commentFrag, preSp_append, preSp, h1, h2, h3, h4,
      ← String.append_assoc, String.append_empty, String.empty_append]

theorem renderAppend_eq (r : Rule) (chainName pfx : String) :
    r.RenderAppend chainName pfx =
      "-A " ++ chainName ++ optFrag pfx ++ commentFrag r.Comment ++
        optFrag r.Match.Render ++ optFrag r.Action.ToFragment := by
  rw [Rule.RenderAppend, renderInner_eq]
  rw [show (["-A", chainName] ++ optsOf r pfx) = "-A" :: chainName :: optsOf r pfx from rfl,
    joinSp_cons]
  simp [preSp, preSp_optsOf, ← String.append_assoc]

theorem renderInsert_eq (r : Rule) (chainName pfx : String) :
    r.RenderInsert chainName pfx =
      "-I " ++ chainName ++ optFrag pfx ++ commentFrag r.Comment ++
        optFrag r.Match.Render ++ optFrag r.Action.ToFragment := by
  rw [Rule.RenderInsert, renderInner_eq]
  rw [show (["-I", chainName] ++ optsOf r pfx) = "-I" :: chainName :: optsOf r pfx from rfl,
    joinSp_cons]
  simp [preSp, preSp_optsOf, ← String.append_assoc]

theorem renderReplace_eq (r : Rule) (chainName : String) (num : Int) (pfx : String) :
    r.RenderReplace chainName num pfx =
      "-R " ++ chainName ++ " " ++ intDec num ++ optFrag pfx ++ commentFrag r.Comment ++
        optFrag r.Match.Render ++ optFrag r.Action.ToFragment := by
  rw [Rule.RenderReplace, renderInner_eq]
  rw [show (["-R", chainName, intDec num] ++ optsOf r pfx)
        = "-R" :: chainName :: intDec num :: optsOf r pfx from rfl,
    joinSp_cons]
  simp [preSp, preSp_optsOf, ← String.append_assoc]

/-- C6: for every rule, chain name, and prefix fragment, the three rendering
entry points assemble fragments in exactly the fixed order — verb, chain
name, for `RenderReplace` the decimal rule number immediately after the
chain name, then the prefix fragment if non-empty, the comment-match
fragment `-m comment --comment "<comment>"` if the comment is non-empty,
the match fragment if non-empty, and the action fragment if non-empty —
joined with single spaces, each optional fragment appearing at most once
and empty fragments omitted entirely. -/
theorem render_fixed_fragment_order (r : Rule) (chainName pfx : String) (num : Int) :
    r.RenderAppend chainName pfx =
      "-A " ++ chainName ++ optFrag pfx ++ commentFrag r.Comment ++
        optFrag r.Match.Render ++ optFrag r.Action.ToFragment ∧
    r.RenderInsert chainName pfx =
      "-I " ++ chainName ++ optFrag pfx ++ commentFrag r.Comment ++
        optFrag r.Match.Render ++ optFrag r.Action.ToFragment ∧
    r.RenderReplace chainName num pfx =
      "-R " ++ chainName ++ " " ++ intDec num ++ optFrag pfx ++ commentFrag r.Comment ++
        optFrag r.Match.Render ++ optFrag r.Action.ToFragment :=
  ⟨renderAppend_eq r chainName pfx, renderInsert_eq r chainName pfx,
   renderReplace_eq r chainName num pfx⟩

/-- C10: the outputs of the three rendering entry points agree on everything
after the leading verb portion — there is one common tail `t` such that
`RenderAppend` is `-A <chain><t>`, `RenderInsert` is `-I <chain><t>`, and
`RenderReplace` is `-R <chain> <num><t>`. -/
theorem render_verbs_share_tail (r : Rule) (chainName pfx : String) (num : Int) :
    ∃ t : String,
      r.RenderAppend chainName pfx = "-A " ++ chainName ++ t ∧
      r.RenderInsert chainName pfx = "-I " ++ chainName ++ t ∧
      r.RenderReplace chainName num pfx = "-R " ++ chainName ++ " " ++ intDec num ++ t := by
  refine ⟨optFrag pfx ++ commentFrag r.Comment ++ optFrag r.Match.Render ++
    optFrag r.Action.ToFragment, ?_, ?_, ?_⟩
  · rw [renderAppend_eq]; simp [String.append_assoc]
  · rw [renderInsert_eq]; simp [String.append_assoc]
  · rw [renderReplace_eq]; simp [String.append_assoc]

/-- C8: each action variant renders to exactly the specified fragment, as a
pure function of its fields; in particular `SetMark 0x10` renders
`--jump MARK --set-mark 10/10` and `ClearMark 0x10` renders
`--jump MARK --set-mark 0/10`. -/
theorem action_fragments_exact (t addr : String) (port m : Nat) :
    (Action.GotoAction t).ToFragment = "--goto " ++ t ∧
    (Action.JumpAction t).ToFragment = "--jump " ++ t ∧
    Action.ReturnAction.ToFragment = "--jump RETURN" ∧
    Action.DropAction.ToFragment = "--jump DROP" ∧
    Action.AcceptAction.ToFragment = "--jump ACCEPT" ∧
    (Action.DNATAction addr port).ToFragment =
      "--jump DNAT --to-destination " ++ addr ++ ":" ++ decString port ∧
    Action.MasqAction.ToFragment = "--jump MASQUERADE" ∧
    (Action.ClearMarkAction m).ToFragment = "--jump MARK --set-mark 0/" ++ lowerHex m ∧
    (Action.SetMarkAction m).ToFragment =
      "--jump MARK --set-mark " ++ lowerHex m ++ "/" ++ lowerHex m ∧
    (Action.SetMarkAction 16).ToFragment = "--jump MARK --set-mark 10/10" ∧
    (Action.ClearMarkAction 16).ToFragment = "--jump MARK --set-mark 0/10" :=
  ⟨rfl, rfl, rfl, rfl, rfl, rfl, rfl, rfl, rfl, by decide, by decide⟩

/-! ## Properties of the minimal base-`b` rendering -/

theorem digVal_digitCh : ∀ d, d < 16 → digVal (digitCh d) = d := by decide

theorem digitCh_ne_zeroCh : ∀ d, d < 16 → 0 < d → digitCh d ≠ '0' := by decide

theorem baseValLE_toBaseCore (b : Nat) (hb2 : 2 ≤ b) (hb16 : b ≤ 16) :
    ∀ fuel n, n ≤ fuel → baseValLE b (toBaseCore b fuel n) = n := by
  intro fuel
  induction fuel with
  | zero =>
    intro n hn
    have h0 : n = 0 := Nat.le_zero.mp hn
    subst h0
    simp [toBaseCore, baseValLE]
  | succ fuel ih =>
    intro n hn
    cases n with
    | zero => simp [toBaseCore, baseValLE]
    | succ m =>
      have hdiv : (m + 1) / b ≤ fuel := by
        have h1 : (m + 1) / b < m + 1 := Nat.div_lt_self (Nat.succ_pos m) (by omega)
        omega
      have hmod : (m + 1) % b < 16 := lt_of_lt_of_le (Nat.mod_lt _ (by omega)) hb16
      simp only [toBaseCore, baseValLE, ih _ hdiv, digVal_digitCh _ hmod]
      exact Nat.mod_add_div (m + 1) b

theorem mem_toBaseCore (b : Nat) (hb : 0 < b) :
    ∀ fuel n c, c ∈ toBaseCore b fuel n → ∃ d, d < b ∧ c = digitCh d := by
  intro fuel
  induction fuel with
  | zero =>
    intro n c hc
    cases n <;> simp [toBaseCore] at hc
  | succ fuel ih =>
    intro n c hc
    cases n with
    | zero => simp [toBaseCore] at hc
    | succ m =>
      simp only [toBaseCore, List.mem_cons] at hc
      rcases hc with hc | hc
      · exact ⟨(m + 1) % b, Nat.mod_lt _ hb, hc⟩
      · exact ih _ _ hc

theorem getLast_toBaseCore (b : Nat) (hb : 2 ≤ b) :
    ∀ fuel n, 0 < n → n ≤ fuel →
      ∃ d, 0 < d ∧ d < b ∧ (toBaseCore b fuel n).getLast? = some (digitCh d) := by
  intro fuel
  induction fuel with
  | zero => intro n hn hle; omega
  | succ fuel ih =>
    intro n hn hle
    cases n with
    | zero => omega
    | succ m =>
      by_cases hq : (m + 1) / b = 0
      · have hlt : m + 1 < b := (Nat.div_eq_zero_iff (by omega)).mp hq
        have hmod : (m + 1) % b = m + 1 := Nat.mod_eq_of_lt hlt
        refine ⟨(m + 1) % b, by omega, by omega, ?_⟩
        simp [toBaseCore, hq]
      · have hdiv : (m + 1) / b ≤ fuel := by
          have h1 : (m + 1) / b < m + 1 := Nat.div_lt_self (Nat.succ_pos m) (by omega)
          omega
        obtain ⟨d, hd0, hdb, hlast⟩ := ih ((m + 1) / b) (Nat.pos_of_ne_zero hq) hdiv
        refine ⟨d, hd0, hdb, ?_⟩
        simp only [toBaseCore]
        rw [List.getLast?_cons, hlast]
        rfl

theorem toBaseCore_ne_nil (b : Nat) (hb : 2 ≤ b) (fuel n : Nat) (hn : 0 < n)
    (hle : n ≤ fuel) : toBaseCore b fuel n ≠ [] := by
  obtain ⟨d, _, _, hlast⟩ := getLast_toBaseCore b hb fuel n hn hle
  intro hnil
  rw [hnil] at hlast
  exact Option.noConfusion hlast

theorem baseVal_reverse (b : Nat) (l : List Char) : baseVal b l.reverse = baseValLE b l := by
  rw [baseVal, List.foldl_reverse]
  induction l with
  | nil => rfl
  | cons c cs ih => simp [List.foldr, baseValLE, ih, Nat.add_comm]

theorem baseRender_minimal (b : Nat) (digits : List Char) (hb2 : 2 ≤ b) (hb16 : b ≤ 16)
    (hdig : ∀ d, d < b → digitCh d ∈ digits) (h0 : '0' ∈ digits) (n : Nat) :
    IsMinimalBase b digits (baseRender b n) n := by
  cases n with
  | zero =>
    have hz : baseRender b 0 = "0" := rfl
    rw [hz]
    refine ⟨by decide, ?_, fun _ => rfl, ?_⟩
    · intro c hc
      have hc0 : c = '0' := by simpa using hc
      rwa [hc0]
    · simp [baseVal, List.foldl, show digVal '0' = 0 from by decide]
  | succ m =>
    have hdata : (baseRender b (m + 1)).data = (toBaseCore b (m + 1) (m + 1)).reverse := rfl
    obtain ⟨d, hd0, hdb, hlast⟩ :=
      getLast_toBaseCore b hb2 (m + 1) (m + 1) (Nat.succ_pos m) (le_refl _)
    refine ⟨?_, ?_, ?_, ?_⟩
    · rw [hdata]
      simp only [ne_eq, List.reverse_eq_nil_iff]
      exact toBaseCore_ne_nil b hb2 (m + 1) (m + 1) (Nat.succ_pos m) (le_refl _)
    · intro c hc
      rw [hdata, List.mem_reverse] at hc
      obtain ⟨e, heb, hce⟩ := mem_toBaseCore b (by omega) (m + 1) (m + 1) c hc
      rw [hce]
      exact hdig e heb
    · intro hhead
      rw [hdata, List.head?_reverse, hlast] at hhead
      have : digitCh d = '0' := Option.some.inj hhead
      exact absurd this (digitCh_ne_zeroCh d (by omega) hd0)
    · rw [hdata, baseVal_reverse]
      exact baseValLE_toBaseCore b hb2 hb16 (m + 1) (m + 1) (le_refl _)

theorem lowerHex_minimal (n : Nat) : IsMinimalBase 16 hexDigits (lowerHex n) n :=
  baseRender_minimal 16 hexDigits (by omega) (le_refl _) (by decide) (by decide) n

theorem decString_minimal (n : Nat) : IsMinimalBase 10 decDigits (decString n) n :=
  baseRender_minimal 10 decDigits (by omega) (by omega) (by decide) (by decide) n

/-- C5 counterexample: the DNAT destination port is rendered in decimal by
the code, so at port 10 the fragment ends in `:10`, not in the lower-case
hexadecimal rendering `a` that the claim requires for numeric fields. -/
theorem dnat_port_not_hex_counterexample :
    (Action.DNATAction "10.0.0.1" 10).ToFragment
      = "--jump DNAT --to-destination 10.0.0.1:10" ∧
    lowerHex 10 = "a" ∧
    (Action.DNATAction "10.0.0.1" 10).ToFragment
      ≠ "--jump DNAT --to-destination 10.0.0.1:" ++ lowerHex 10 := by
  refine ⟨by decide, by decide, by decide⟩

/-- C5 (amended): the SetMark and ClearMark mark values are rendered in
their `ToFragment` output as minimal lower-case hexadecimal — no leading
`0x`, no zero-padding beyond the natural width — while the DNAT
destination port is rendered in minimal decimal, not hexadecimal. -/
theorem numeric_fields_render_minimal (m port : Nat) (addr : String) :
    (Action.SetMarkAction m).ToFragment
      = "--jump MARK --set-mark " ++ lowerHex m ++ "/" ++ lowerHex m ∧
    (Action.ClearMarkAction m).ToFragment = "--jump MARK --set-mark 0/" ++ lowerHex m ∧
    IsMinimalBase 16 hexDigits (lowerHex m) m ∧
    (Action.DNATAction addr port).ToFragment
      = "--jump DNAT --to-destination " ++ addr ++ ":" ++ decString port ∧
    IsMinimalBase 10 decDigits (decString port) port :=
  ⟨rfl, rfl, lowerHex_minimal m, rfl, decString_minimal port⟩

/-! ## Action-fragment facts and the no-double-space property -/

theorem action_fragment_head (a : Action) : (a.ToFragment).data.head? = some '-' := by
  cases a <;> simp only [Action.ToFragment, String.data_append] <;> rfl

theorem chain'_iff_noDSb : (l : List Char) →
    (List.Chain' (fun a b => ¬(a = ' ' ∧ b = ' ')) l ↔ noDSb l = true)
  | [] => by simp [noDSb]
  | [a] => by simp [noDSb]
  | a :: b :: rest => by
    rw [List.chain'_cons, chain'_iff_noDSb (b :: rest)]
    show _ ↔ (!(a == ' ' && b == ' ') && noDSb (b :: rest)) = true
    by_cases ha : a = ' ' <;> by_cases hb : b = ' ' <;> simp [ha, hb]

theorem action_fragment_ne_empty (a : Action) : a.ToFragment ≠ "" := by
  intro h
  have hd := action_fragment_head a
  rw [h] at hd
  exact Option.noConfusion hd

theorem renderAppend_no_match_no_comment (r : Rule) (chainName : String)
    (hm : r.Match.Render = "") (hc : r.Comment = "") :
    r.RenderAppend chainName "" = "-A " ++ chainName ++ " " ++ r.Action.ToFragment := by
  rw [renderAppend_eq]
  simp [optFrag, commentFrag, hm, hc, action_fragment_ne_empty r.Action,
    ← String.append_assoc, String.append_empty]

/-- C9 (amended): with empty match output and empty comment,
`RenderAppend(chain, "")` equals `-A <chain> <action fragment>`; and the
result has no two consecutive spaces provided the chain name is non-empty,
neither starts nor ends with a space, and neither the chain name nor the
action fragment contains two consecutive spaces. -/
theorem append_render_shape_no_double_space (r : Rule) (chainName : String)
    (hm : r.Match.Render = "") (hc : r.Comment = "") :
    r.RenderAppend chainName "" = "-A " ++ chainName ++ " " ++ r.Action.ToFragment ∧
    (chainName.data ≠ [] → chainName.data.head? ≠ some ' ' →
      chainName.data.getLast? ≠ some ' ' → noDoubleSpace chainName →
      noDoubleSpace r.Action.ToFragment →
      noDoubleSpace (r.RenderAppend chainName "")) := by
  refine ⟨renderAppend_no_match_no_comment r chainName hm hc, ?_⟩
  intro hne hh hl hcn haf
  rw [noDoubleSpace, renderAppend_no_match_no_comment r chainName hm hc]
  rw [String.data_append, String.data_append, String.data_append]
  rw [show ("-A " : String).data = ['-', 'A', ' '] from rfl,
    show (" " : String).data = [' '] from rfl]
  rw [List.append_assoc, List.append_assoc, List.singleton_append]
  rw [show (['-', 'A', ' '] : List Char) ++ (chainName.data ++ ' ' :: (r.Action.ToFragment).data)
        = '-' :: 'A' :: ' ' :: (chainName.data ++ ' ' :: (r.Action.ToFragment).data) from rfl]
  refine List.chain'_cons.mpr ⟨by decide, List.chain'_cons.mpr ⟨by decide, ?_⟩⟩
  refine List.chain'_cons'.mpr ⟨?_, ?_⟩
  · intro y hy hAnd
    rw [List.head?_append_of_ne_nil chainName.data hne, Option.mem_def] at hy
    exact hh (by rw [hy, hAnd.2])
  · refine List.chain'_append.mpr ⟨hcn, ?_, ?_⟩
    · refine List.chain'_cons'.mpr ⟨?_, haf⟩
      intro y hy hAnd
      rw [Option.mem_def, action_fragment_head r.Action] at hy
      have hy' : y = '-' := (Option.some.inj hy).symm
      rw [hy'] at hAnd
      exact absurd hAnd.2 (by decide)
    · intro x hx y hy hAnd
      rw [Option.mem_def] at hx
      exact hl (by rw [hx, hAnd.1])

/-- C9 counterexample: for the chain name `a  b`, which itself contains two
consecutive spaces, the rendering of a rule with empty match output and
empty comment equals `-A <chain> <action fragment>` but does contain two
consecutive spaces, so the unconditional no-double-space claim fails. -/
theorem double_space_chain_name_counterexample :
    exAccept.Match.Render = "" ∧ exAccept.Comment = "" ∧
    exAccept.RenderAppend "a  b" "" = "-A a  b --jump ACCEPT" ∧
    ¬ noDoubleSpace (exAccept.RenderAppend "a  b" "") := by
  refine ⟨rfl, rfl, by decide, ?_⟩
  rw [noDoubleSpace, chain'_iff_noDSb]
  decide

/-- Witness for the amended C9 statement at the end-to-end example of spec
section 8: chain `cali-INPUT` with one all-default Accept rule. -/
theorem append_render_shape_witness :
    exAccept.Match.Render = "" ∧ exAccept.Comment = "" ∧
    exAccept.RenderAppend "cali-INPUT" "" = "-A cali-INPUT --jump ACCEPT" ∧
    noDoubleSpace (exAccept.RenderAppend "cali-INPUT" "") := by
  refine ⟨rfl, rfl, by decide, ?_⟩
  refine (append_render_shape_no_double_space exAccept "cali-INPUT" rfl rfl).2
    (by decide) (by decide) (by decide) ?_ ?_
  · rw [noDoubleSpace, chain'_iff_noDSb]; decide
  · rw [noDoubleSpace, chain'_iff_noDSb]; decide

/-! ## The chained fingerprint computation -/

theorem hashChainFrom_length (name : String) :
    ∀ (rules : List Rule) (h : List Nat), (hashChainFrom name h rules).length = rules.length := by
  intro rules
  induction rules with
  | nil => intro h; rfl
  | cons r rest ih => intro h; simp [hashChainFrom, ih]

theorem specChainedFingerprints_eq_go (name : String) :
    ∀ (rules : List Rule) (h : List Nat) (acc : List String),
      (rules.foldl
        (fun acc r =>
          let running := sha224 (acc.1 ++ utf8 (r.RenderAppend name "HASH"))
          (running, acc.2 ++ [String.mk ((b64enc running).take 16)]))
        (h, acc)).2 = acc ++ hashChainFrom name h rules := by
  intro rules
  induction rules with
  | nil => intro h acc; simp [hashChainFrom]
  | cons r rest ih =>
    intro h acc
    simp only [List.foldl_cons]
    rw [ih]
    simp [hashChainFrom, HashLength, List.append_assoc]

/-- C1: `RuleHashes` implements the specified chained-digest algorithm with
digest SHA-224 and sentinel prefix fragment `"HASH"`: one fingerprint per
rule, in rule order; the running digest is seeded with the digest of the
chain name alone, each step digests the previous running digest followed
by the UTF-8 bytes of the rule rendered via `RenderAppend` with the
sentinel, and each fingerprint is the first 16 characters of the raw
URL-safe base-64 encoding of the running digest. -/
theorem ruleHashes_implements_spec_algorithm (c : Chain) :
    c.RuleHashes = specChainedFingerprints sha224 "HASH" c.Name c.Rules ∧
    c.RuleHashes.length = c.Rules.length := by
  constructor
  · have h1 := specChainedFingerprints_eq_go c.Name c.Rules (sha224 (utf8 c.Name)) []
    calc c.RuleHashes = [] ++ hashChainFrom c.Name (sha224 (utf8 c.Name)) c.Rules := by
          rw [List.nil_append]; rfl
      _ = specChainedFingerprints sha224 "HASH" c.Name c.Rules := by
          rw [← h1]; rfl
  · exact hashChainFrom_length c.Name c.Rules _

theorem hashChainFrom_get?_congr (name : String) :
    ∀ (k : Nat) (rules1 rules2 : List Rule) (h : List Nat),
      rules1.take (k+1) = rules2.take (k+1) →
      (hashChainFrom name h rules1).get? k = (hashChainFrom name h rules2).get? k := by
  intro k
  induction k with
  | zero =>
    intro rules1 rules2 h heq
    cases rules1 with
    | nil =>
      cases rules2 with
      | nil => rfl
      | cons r2 t2 => simp [List.take_succ_cons] at heq
    | cons r1 t1 =>
      cases rules2 with
      | nil => simp [List.take_succ_cons] at heq
      | cons r2 t2 =>
        have hr : r1 = r2 := by
          simp only [List.take_succ_cons, List.cons.injEq] at heq
          exact heq.1
        subst hr
        rfl
  | succ k ih =>
    intro rules1 rules2 h heq
    cases rules1 with
    | nil =>
      cases rules2 with
      | nil => rfl
      | cons r2 t2 => simp [List.take_succ_cons] at heq
    | cons r1 t1 =>
      cases rules2 with
      | nil => simp [List.take_succ_cons] at heq
      | cons r2 t2 =>
        simp only [List.take_succ_cons, List.cons.injEq] at heq
        obtain ⟨hr, ht⟩ := heq
        subst hr
        simp only [hashChainFrom]
        rw [List.get?_cons_succ, List.get?_cons_succ]
        exact ih t1 t2 _ ht

/-- C3: the fingerprint at position `i` is a function of only the chain
name and the rules at positions `0` through `i` inclusive — two rule
sequences agreeing on that initial segment get the same fingerprint at
position `i`. -/
theorem fingerprint_depends_only_on_initial_segment (name : String)
    (rs1 rs2 : List Rule) (i : Nat) (h : rs1.take (i+1) = rs2.take (i+1)) :
    (Chain.RuleHashes ⟨name, rs1⟩).get? i = (Chain.RuleHashes ⟨name, rs2⟩).get? i :=
  hashChainFrom_get?_congr name i rs1 rs2 (sha224 (utf8 name)) h

/-- Witness for C3 at two concrete two-element and one-element rule lists
agreeing at position 0. -/
theorem fingerprint_initial_segment_witness :
    ([exAccept, exDrop] : List Rule).take 1 = ([exAccept, exReturn] : List Rule).take 1 ∧
    (Chain.RuleHashes ⟨"chain", [exAccept, exDrop]⟩).get? 0
      = (Chain.RuleHashes ⟨"chain", [exAccept, exReturn]⟩).get? 0 :=
  ⟨by decide, fingerprint_depends_only_on_initial_segment "chain" _ _ 0 (by decide)⟩

theorem take_set_of_le {α : Type} :
    ∀ (l : List α) (n m : Nat) (a : α), m ≤ n → (l.set n a).take m = l.take m := by
  intro l
  induction l with
  | nil => intro n m a _; simp
  | cons x xs ih =>
    intro n m a hmn
    cases m with
    | zero => simp
    | succ m =>
      cases n with
      | zero => omega
      | succ n =>
        simp only [List.set_cons_succ, List.take_succ_cons]
        rw [ih n m a (by omega)]

theorem set_get?_self {α : Type} :
    ∀ (l : List α) (n : Nat) (a : α), l.get? n = some a → l.set n a = l := by
  intro l
  induction l with
  | nil => intro n a h; simp [List.get?] at h
  | cons x xs ih =>
    intro n a h
    cases n with
    | zero =>
      have hx : x = a := by simpa using h
      rw [List.set_cons_zero, ← hx]
    | succ n =>
      simp only [List.get?_cons_succ] at h
      rw [List.set_cons_succ, ih n a h]

/-- C2 (amended): swapping the rules at distinct in-range positions
`i < j` never changes the fingerprint at any position strictly before `i`;
the fingerprints from `i` onward are not guaranteed to change — in
particular, when the rules at `i` and `j` are equal, every fingerprint is
unchanged. -/
theorem swap_preserves_earlier_fingerprints (name : String) (rules : List Rule)
    (i j : Nat) (hij : i < j) (hj : j < rules.length) :
    (∀ k, k < i →
      (Chain.RuleHashes ⟨name, swapAt rules i j⟩).get? k
        = (Chain.RuleHashes ⟨name, rules⟩).get? k) ∧
    (rules.get? i = rules.get? j →
      Chain.RuleHashes ⟨name, swapAt rules i j⟩ = Chain.RuleHashes ⟨name, rules⟩) := by
  have hi : i < rules.length := lt_trans hij hj
  obtain ⟨a, ha⟩ : ∃ a, rules.get? i = some a :=
    ⟨rules.get ⟨i, hi⟩, List.get?_eq_some.mpr ⟨hi, rfl⟩⟩
  obtain ⟨b, hb⟩ : ∃ b, rules.get? j = some b :=
    ⟨rules.get ⟨j, hj⟩, List.get?_eq_some.mpr ⟨hj, rfl⟩⟩
  have hswap : swapAt rules i j = (rules.set i b).set j a := by
    rw [swapAt, ha, hb]
  constructor
  · intro k hk
    apply hashChainFrom_get?_congr
    rw [hswap, take_set_of_le _ j (k+1) a (by omega), take_set_of_le _ i (k+1) b (by omega)]
  · intro heq
    have hab : a = b := by
      rw [ha, hb] at heq
      exact Option.some.inj heq
    rw [hswap, ← hab, set_get?_self rules i a ha, set_get?_self rules j a (by rw [hb, hab])]

/-- Witness for the amended C2 statement: swapping positions 1 and 2 of a
three-rule chain leaves the fingerprint at position 0 unchanged. -/
theorem swap_preserves_earlier_witness :
    (1 < 2 ∧ 2 < ([exAccept, exDrop, exReturn] : List Rule).length) ∧
    (Chain.RuleHashes ⟨"chain", swapAt [exAccept, exDrop, exReturn] 1 2⟩).get? 0
      = (Chain.RuleHashes ⟨"chain", [exAccept, exDrop, exReturn]⟩).get? 0 :=
  ⟨⟨by decide, by decide⟩,
   (swap_preserves_earlier_fingerprints "chain" [exAccept, exDrop, exReturn] 1 2
     (by decide) (by decide)).1 0 (by decide)⟩

/-- C2 counterexample: positions 0 and 1 of a two-rule chain holding two
equal rules are distinct valid positions, yet swapping them changes no
fingerprint at all — the fingerprint at position 0 (the earlier swapped
index) is unchanged, contradicting the claim that every fingerprint from
that index onward changes. -/
theorem swap_equal_rules_counterexample :
    0 < 1 ∧ 1 < ([exAccept, exAccept] : List Rule).length ∧
    (Chain.RuleHashes ⟨"chain", swapAt [exAccept, exAccept] 0 1⟩).get? 0
      = (Chain.RuleHashes ⟨"chain", [exAccept, exAccept]⟩).get? 0 := by
  refine ⟨by decide, by decide, ?_⟩
  rw [show swapAt ([exAccept, exAccept] : List Rule) 0 1 = [exAccept, exAccept] from rfl]

/-- C4: `RuleHashes` is a pure function of the chain name and the ordered
rule sequence — two chains agreeing on both fields get identical
fingerprint sequences; no other input (time, randomness, iteration order)
can influence the result of the embedded computation. -/
theorem ruleHashes_deterministic (c1 c2 : Chain) (hn : c1.Name = c2.Name)
    (hr : c1.Rules = c2.Rules) : c1.RuleHashes = c2.RuleHashes := by
  cases c1
  cases c2
  cases hn
  cases hr
  rfl

/-- Witness for C4 at the concrete one-rule chain of the spec example. -/
theorem ruleHashes_deterministic_witness :
    (Chain.mk "cali-INPUT" [exAccept]).Name = (Chain.mk "cali-INPUT" [exAccept]).Name ∧
    (Chain.mk "cali-INPUT" [exAccept]).Rules = (Chain.mk "cali-INPUT" [exAccept]).Rules ∧
    (Chain.mk "cali-INPUT" [exAccept]).RuleHashes
      = (Chain.mk "cali-INPUT" [exAccept]).RuleHashes :=
  ⟨rfl, rfl, ruleHashes_deterministic _ _ rfl rfl⟩

/-! ## Fingerprint length and alphabet -/

theorem beBytes_length : ∀ n v, (beBytes n v).length = n := by
  intro n
  induction n with
  | zero => intro v; rfl
  | succ n ih => intro v; simp [beBytes, ih]

theorem sha224_length (msg : List Nat) : (sha224 msg).length = 28 := by
  simp [sha224, beBytes_length]

theorem b64enc_length_lb : (xs : List Nat) → 4 * xs.length ≤ 3 * (b64enc xs).length + 3
  | [] => by simp [b64enc]
  | [b0] => by simp [b64enc]
  | [b0, b1] => by simp [b64enc]
  | b0 :: b1 :: b2 :: rest => by
    have ih := b64enc_length_lb rest
    simp only [b64enc, List.length_cons]
    omega

theorem mem_b64enc : (xs : List Nat) → ∀ c ∈ b64enc xs, ∃ i, i < 64 ∧ c = tbl i
  | [] => by simp [b64enc]
  | [b0] => by
    intro c hc
    simp only [b64enc, List.mem_cons, List.not_mem_nil, or_false] at hc
    rcases hc with hc | hc
    · exact ⟨_, Nat.lt_succ_of_le Nat.and_le_right, hc⟩
    · exact ⟨_, Nat.lt_succ_of_le Nat.and_le_right, hc⟩
  | [b0, b1] => by
    intro c hc
    simp only [b64enc, List.mem_cons, List.not_mem_nil, or_false] at hc
    rcases hc with hc | hc | hc <;> exact ⟨_, Nat.lt_succ_of_le Nat.and_le_right, hc⟩
  | b0 :: b1 :: b2 :: rest => by
    intro c hc
    simp only [b64enc, List.mem_cons] at hc
    rcases hc with hc | hc | hc | hc | hc
    · exact ⟨_, Nat.lt_succ_of_le Nat.and_le_right, hc⟩
    · exact ⟨_, Nat.lt_succ_of_le Nat.and_le_right, hc⟩
    · exact ⟨_, Nat.lt_succ_of_le Nat.and_le_right, hc⟩
    · exact ⟨_, Nat.lt_succ_of_le Nat.and_le_right, hc⟩
    · exact mem_b64enc rest c hc

theorem tbl_alphabet : ∀ i, i < 64 → ((tbl i).isAlphanum ∨ tbl i = '-' ∨ tbl i = '_') := by
  decide

theorem hashChainFrom_shape (name : String) :
    ∀ (rules : List Rule) (h : List Nat) (fp : String), fp ∈ hashChainFrom name h rules →
      ∃ x, fp = String.mk ((b64enc (sha224 x)).take HashLength) := by
  intro rules
  induction rules with
  | nil => intro h fp hfp; simp [hashChainFrom] at hfp
  | cons r rest ih =>
    intro h fp hfp
    simp only [hashChainFrom, List.mem_cons] at hfp
    rcases hfp with hfp | hfp
    · exact ⟨h ++ utf8 (r.RenderAppend name "HASH"), hfp⟩
    · exact ih _ fp hfp

/-- C7: every fingerprint returned by `RuleHashes` is exactly 16 characters
long, and each character is alphanumeric or `-` or `_` — the URL-safe
base-64 alphabet. -/
theorem fingerprint_length_and_alphabet (c : Chain) (fp : String)
    (hfp : fp ∈ c.RuleHashes) :
    fp.length = 16 ∧ ∀ ch ∈ fp.data, (ch.isAlphanum ∨ ch = '-' ∨ ch = '_') := by
  obtain ⟨x, hx⟩ := hashChainFrom_shape c.Name c.Rules _ fp hfp
  subst hx
  have hlen : 16 ≤ (b64enc (sha224 x)).length := by
    have h1 := b64enc_length_lb (sha224 x)
    rw [sha224_length] at h1
    omega
  constructor
  · show ((b64enc (sha224 x)).take HashLength).length = 16
    rw [List.length_take]
    simp only [HashLength]
    omega
  · intro ch hch
    have hch2 : ch ∈ b64enc (sha224 x) := List.take_subset _ _ hch
    obtain ⟨i, hi, hc⟩ := mem_b64enc _ ch hch2
    rw [hc]
    exact tbl_alphabet i hi

set_option maxRecDepth 100000 in
/-- Witness for C7 at the spec example chain: its single fingerprint is the
16-character string below, all of whose characters lie in the URL-safe
base-64 alphabet. -/
theorem fingerprint_length_witness :
    ("n6vie0m1ET9iZWmO" : String) ∈ (Chain.mk "cali-INPUT" [exAccept]).RuleHashes ∧
    ("n6vie0m1ET9iZWmO" : String).length = 16 ∧
    (∀ ch ∈ ("n6vie0m1ET9iZWmO" : String).data,
      (ch.isAlphanum ∨ ch = '-' ∨ ch = '_')) := by
  have hm : ("n6vie0m1ET9iZWmO" : String) ∈ (Chain.mk "cali-INPUT" [exAccept]).RuleHashes := by
    decide
  exact ⟨hm, fingerprint_length_and_alphabet _ _ hm⟩

end Iptables
